import Mathlib

/-!
Verification development for the `polar_mandelbrot` renderer (`src/main.rs`).

The program renders the Mandelbrot set into a 3960x2160 raster and then
samples a boundary radius along rays from the plane origin.  We embed the
arithmetic of the program over exact rationals: every `f32` value that the
program manipulates is modelled as a `ℚ`, `as u32` casts are modelled with
their Rust semantics (float-to-int saturating truncation, int-to-int
wrapping), and comparisons `|z| < r` on nonnegative quantities are modelled
by the equivalent `|z|^2 < r^2` so that no square root is needed.
The `bresenham` crate's iterator (`Bresenham::new`, octant transforms and
the `next` loop) is embedded state-for-state.
-/

/-- Raster width in pixels (`IMG_WIDTH` in the source). -/
def IMG_WIDTH : ℕ := 3960

/-- Raster height in pixels (`IMG_HEIGHT` in the source). -/
def IMG_HEIGHT : ℕ := 2160

/-- Escape bailout radius (`BAILOUT_RADIUS`), an exactly representable float. -/
def BAILOUT_RADIUS : ℚ := 2

/-- Maximum escape iteration count (`BAILOUT_ITERATIONS`). -/
def BAILOUT_ITERATIONS : ℕ := 1000

/-- A complex number as stored by the program (`Complex<f32>`), with both
components modelled as exact rationals. -/
structure Complex32 where
  re : ℚ
  im : ℚ
deriving DecidableEq, Repr

/-- Complex addition (`z + c`). -/
def cAdd (a b : Complex32) : Complex32 := ⟨a.re + b.re, a.im + b.im⟩

/-- Complex multiplication (`z * z`). -/
def cMul (a b : Complex32) : Complex32 :=
  ⟨a.re * b.re - a.im * b.im, a.re * b.im + a.im * b.re⟩

/-- Squared magnitude of a complex number.  The source compares
`z.norm() < BAILOUT_RADIUS`; since both sides are nonnegative this is
equivalent to `cNormSq z < BAILOUT_RADIUS ^ 2`, which avoids `sqrt`. -/
def cNormSq (a : Complex32) : ℚ := a.re * a.re + a.im * a.im

/-- The complex zero `Complex::new(0.0, 0.0)`. -/
def czero : Complex32 := ⟨0, 0⟩

/-- One escape step `z * z + c`. -/
def stepC (c z : Complex32) : Complex32 := cAdd (cMul z z) c

/-- Rust `f32 as u32`: truncation toward zero, saturating at `0` and
`u32::MAX`.  (`NaN` cannot arise in the exact-rational model.) -/
def f32ToU32 (q : ℚ) : ℕ :=
  if q < 0 then 0 else min (Int.toNat ⌊q⌋) (2 ^ 32 - 1)

/-- Rust `isize as u32` on a 64-bit platform: wrapping modulo `2^32`. -/
def isizeToU32 (x : ℤ) : ℕ := (x % (2 ^ 32 : ℤ)).toNat

/-- Model of `complex_to_coordinate` from the source: map a plane point to a pixel. -/
def complex_to_coordinate (c : Complex32) : ℕ × ℕ :=
  (f32ToU32 ((c.re / 2 + 1) / 2 * (IMG_WIDTH : ℚ)),
   f32ToU32 ((1 - (c.im / (2 * (IMG_HEIGHT : ℚ) / (IMG_WIDTH : ℚ)) + 1) / 2) * (IMG_HEIGHT : ℚ)))

/-- Model of `coordinate_to_complex` from the source: map a pixel to a plane point. -/
def coordinate_to_complex (p : ℕ × ℕ) : Complex32 :=
  ⟨2 * ((p.1 : ℚ) / (IMG_WIDTH : ℚ) * 2 - 1),
   2 * (IMG_HEIGHT : ℚ) / (IMG_WIDTH : ℚ) * ((1 - (p.2 : ℚ) / (IMG_HEIGHT : ℚ)) * 2 - 1)⟩

/-- The escape loop of `compute_row` with the remaining fuel made explicit:
`escapeGo c z fuel` is the number of further iterations the loop
`while z.norm() < BAILOUT_RADIUS && i < BAILOUT_ITERATIONS` performs when the
current value is `z` and `fuel` iterations remain before the cap. -/
def escapeGo (c : Complex32) : Complex32 → ℕ → ℕ
  | _, 0 => 0
  | z, Nat.succ fuel =>
      if cNormSq z < BAILOUT_RADIUS ^ 2 then escapeGo c (stepC c z) fuel + 1 else 0

/-- The final value of the loop counter `i` in `compute_row` for the point `c`:
the iteration starts from `z = 0` with `BAILOUT_ITERATIONS` fuel. -/
def escapeCount (c : Complex32) : ℕ := escapeGo c czero BAILOUT_ITERATIONS

/-- The orbit of the escape iteration: `mandelIterFrom c z n` is `z` after `n`
steps of `z ← z * z + c`. -/
def mandelIterFrom (c z : Complex32) : ℕ → Complex32
  | 0 => z
  | Nat.succ n => stepC c (mandelIterFrom c z n)

/-- The orbit started from `z = 0`, as in `compute_row`. -/
def mandelIter (c : Complex32) (n : ℕ) : Complex32 := mandelIterFrom c czero n

/-- An 8-bit RGB color, as a triple of channel values. -/
def Color : Type := ℕ × ℕ × ℕ

instance : DecidableEq Color := instDecidableEqProd

/-- The color `[0, 0, 0]` pushed by `compute_row` when `i < BAILOUT_ITERATIONS`
(the point escaped). -/
def blackC : Color := (0, 0, 0)

/-- The color `[255, 255, 255]` pushed by `compute_row` when the count reached
`BAILOUT_ITERATIONS` (the point never escaped). -/
def whiteC : Color := (255, 255, 255)

/-- Model of `compute_row` from the source: one scanline of colors. -/
def compute_row (y : ℕ) : List Color :=
  (List.range IMG_WIDTH).map fun x =>
    if escapeCount (coordinate_to_complex (x, y)) < BAILOUT_ITERATIONS then blackC else whiteC

/-- A raster, as the total pixel-lookup function backing `RgbImage`. -/
def Raster : Type := ℕ → ℕ → Color

/-- The raster produced by the rendering phase of `main`: pixel `(x, y)` holds
the color `compute_row y` computed for column `x`. -/
def renderedRaster : Raster := fun x y =>
  if escapeCount (coordinate_to_complex (x, y)) < BAILOUT_ITERATIONS then blackC else whiteC

/-- A raster that is entirely the never-escaped color. -/
def allWhiteRaster : Raster := fun _ _ => whiteC

/-- A raster that is entirely the escaped color. -/
def allBlackRaster : Raster := fun _ _ => blackC

/-- Model of `Octant::to_octant0` from the `bresenham` crate. -/
def toOctant0 (o : ℕ) (p : ℤ × ℤ) : ℤ × ℤ :=
  match o with
  | 0 => (p.1, p.2)
  | 1 => (p.2, p.1)
  | 2 => (p.2, -p.1)
  | 3 => (-p.1, p.2)
  | 4 => (-p.1, -p.2)
  | 5 => (-p.2, -p.1)
  | 6 => (-p.2, p.1)
  | 7 => (p.1, -p.2)
  | _ => (p.1, p.2)

/-- Model of `Octant::from_octant0` from the `bresenham` crate. -/
def fromOctant0 (o : ℕ) (p : ℤ × ℤ) : ℤ × ℤ :=
  match o with
  | 0 => (p.1, p.2)
  | 1 => (p.2, p.1)
  | 2 => (-p.2, p.1)
  | 3 => (-p.1, p.2)
  | 4 => (-p.1, -p.2)
  | 5 => (-p.2, -p.1)
  | 6 => (p.2, -p.1)
  | 7 => (p.1, -p.2)
  | _ => (p.1, p.2)

/-- Model of `Octant::from_points` from the `bresenham` crate, with its three mutating
`if` branches compiled out into nested conditionals (the running `(dx, dy)`
pair is substituted through). -/
def octantFromPoints (s e : ℤ × ℤ) : ℕ :=
  let dx := e.1 - s.1
  let dy := e.2 - s.2
  if dy < 0 then
    (if 0 < dx then (if -dy < dx then 7 else 6) else (if -dx < -dy then 5 else 4))
  else
    (if dx < 0 then (if dy < -dx then 3 else 2) else (if dx < dy then 1 else 0))

/-- The iterator state of `bresenham::Bresenham`. -/
structure BresState where
  x : ℤ
  y : ℤ
  dx : ℤ
  dy : ℤ
  x1 : ℤ
  diff : ℤ
  octant : ℕ
deriving DecidableEq, Repr

/-- Model of `Bresenham::new`. -/
def bresNew (s e : ℤ × ℤ) : BresState :=
  let o := octantFromPoints s e
  let s0 := toOctant0 o s
  let e0 := toOctant0 o e
  ⟨s0.1, s0.2, e0.1 - s0.1, e0.2 - s0.2, e0.1, (e0.2 - s0.2) - (e0.1 - s0.1), o⟩

/-- One `next` call of the iterator, assuming `x < x1`: the yielded point (in
original coordinates) and the successor state. -/
def bresStep (s : BresState) : (ℤ × ℤ) × BresState :=
  (fromOctant0 s.octant (s.x, s.y),
   if 0 ≤ s.diff then
     ⟨s.x + 1, s.y + 1, s.dx, s.dy, s.x1, s.diff - s.dx + s.dy, s.octant⟩
   else
     ⟨s.x + 1, s.y, s.dx, s.dy, s.x1, s.diff + s.dy, s.octant⟩)

/-- Run the iterator to exhaustion, with explicit fuel; `next` returns `None`
exactly when `x ≥ x1`, so `(x1 - x).toNat` fuel drains the iterator. -/
def bresRun : ℕ → BresState → List (ℤ × ℤ)
  | 0, _ => []
  | Nat.succ fuel, s =>
      if s.x1 ≤ s.x then [] else (bresStep s).1 :: bresRun fuel (bresStep s).2

/-- All points yielded by `Bresenham::new(s, e)`, in order (the start is
included, the end point is not). -/
def bresPoints (s e : ℤ × ℤ) : List (ℤ × ℤ) :=
  bresRun ((bresNew s e).x1 - (bresNew s e).x).toNat (bresNew s e)

/-- The `(x as u32, y as u32)` pixel of a yielded point. -/
def pxOf (p : ℤ × ℤ) : ℕ × ℕ := (isizeToU32 p.1, isizeToU32 p.2)

/-- View a pixel as a point for `Bresenham::new` (`as isize`, exact). -/
def pixelZ (p : ℕ × ℕ) : ℤ × ℤ := ((p.1 : ℤ), (p.2 : ℤ))

/-- The pixel of the plane origin, as computed by `compute_radius`. -/
def originPixel : ℕ × ℕ := complex_to_coordinate ⟨0, 0⟩

/-- The pixel of the tip of the length-2 ray for a direction with cosine `ct`
and sine `st`, as computed by `compute_radius`. -/
def endpointPixel (ct st : ℚ) : ℕ × ℕ := complex_to_coordinate ⟨2 * ct, 2 * st⟩

/-- The `for` loop of `compute_radius`: fold over the yielded points, keeping
the last pixel whose color was `[255, 255, 255]` and stopping at the first
pixel of any other color. -/
def walkLast (img : Raster) : List (ℤ × ℤ) → ℕ × ℕ → ℕ × ℕ
  | [], last => last
  | p :: rest, last =>
      if img (pxOf p).1 (pxOf p).2 = whiteC then walkLast img rest (pxOf p) else last

/-- The pixels at which the loop of `compute_radius` calls `get_pixel`: every
yielded point up to and including the first one that is not white. -/
def walkReads (img : Raster) : List (ℤ × ℤ) → List (ℕ × ℕ)
  | [] => []
  | p :: rest =>
      if img (pxOf p).1 (pxOf p).2 = whiteC then pxOf p :: walkReads img rest else [pxOf p]

/-- The discretized line walked by `compute_radius` toward a given endpoint
pixel (the walk itself does not depend on the raster). -/
def radiusWalkToward (e : ℕ × ℕ) : List (ℤ × ℤ) :=
  bresPoints (pixelZ originPixel) (pixelZ e)

/-- The last-member pixel computed by `compute_radius` toward an endpoint. -/
def radiusLastToward (img : Raster) (e : ℕ × ℕ) : ℕ × ℕ :=
  walkLast img (radiusWalkToward e) originPixel

/-- The squared return value of `compute_radius` toward an endpoint pixel:
the source returns `coordinate_to_complex(last_member).norm()`; we track its
square, so a radius in `[0, 2]` corresponds to a value in `[0, 4]` here. -/
def radiusSqToward (img : Raster) (e : ℕ × ℕ) : ℚ :=
  cNormSq (coordinate_to_complex (radiusLastToward img e))

/-- The squared return value of `compute_radius` for the angle whose cosine
and sine are `ct` and `st`. -/
def compute_radius_sq (img : Raster) (ct st : ℚ) : ℚ :=
  radiusSqToward img (endpointPixel ct st)

/-- A raster is consistent with the rendered viewport if every pixel holding
the never-escaped color really classifies as never-escaped.  The raster
rendered by `main` has this property. -/
def ConsistentRaster (img : Raster) : Prop :=
  ∀ a b : ℕ, img a b = whiteC →
    escapeCount (coordinate_to_complex (a, b)) = BAILOUT_ITERATIONS

-- ################################################################
-- Supporting lemmas
-- ################################################################

/-- The escape loop performs at most `fuel` iterations. -/
theorem escapeGo_le (c : Complex32) : ∀ (fuel : ℕ) (z : Complex32), escapeGo c z fuel ≤ fuel := by
  intro fuel
  induction fuel with
  | zero => intro z; simp [escapeGo]
  | succ n ih =>
      intro z
      simp only [escapeGo]
      split
      · exact Nat.succ_le_succ (ih _)
      · exact Nat.zero_le _

/-- The count never exceeds the iteration cap. -/
theorem escapeCount_le (c : Complex32) : escapeCount c ≤ BAILOUT_ITERATIONS :=
  escapeGo_le c BAILOUT_ITERATIONS czero

/-- Stepping from `0` lands exactly on `c`. -/
theorem stepC_zero (c : Complex32) : stepC c czero = c := by
  cases c
  simp [stepC, czero, cAdd, cMul]

/-- At `c = 0` the orbit is constantly `0`, so the loop always runs to the cap. -/
theorem escapeGo_zero : ∀ fuel : ℕ, escapeGo czero czero fuel = fuel := by
  intro fuel
  induction fuel with
  | zero => simp [escapeGo]
  | succ n ih =>
      rw [escapeGo, stepC_zero]
      have h : cNormSq czero < BAILOUT_RADIUS ^ 2 := by
        norm_num [cNormSq, czero, BAILOUT_RADIUS]
      rw [if_pos h, ih]

/-- Shifting the start of the orbit by one step. -/
theorem mandelIterFrom_succ_shift (c z : Complex32) :
    ∀ n : ℕ, mandelIterFrom c z (n + 1) = mandelIterFrom c (stepC c z) n := by
  intro n
  induction n with
  | zero => simp [mandelIterFrom]
  | succ m ih =>
      calc mandelIterFrom c z (m + 1 + 1) = stepC c (mandelIterFrom c z (m + 1)) := rfl
        _ = stepC c (mandelIterFrom c (stepC c z) m) := by rw [ih]
        _ = mandelIterFrom c (stepC c z) (m + 1) := rfl

/-- Every orbit point strictly before the stopping index has magnitude below
the bailout. -/
theorem escapeGo_before (c : Complex32) :
    ∀ (fuel : ℕ) (z : Complex32) (j : ℕ), j < escapeGo c z fuel →
      cNormSq (mandelIterFrom c z j) < BAILOUT_RADIUS ^ 2 := by
  intro fuel
  induction fuel with
  | zero => intro z j h; simp [escapeGo] at h
  | succ n ih =>
      intro z j h
      rw [escapeGo] at h
      by_cases hz : cNormSq z < BAILOUT_RADIUS ^ 2
      · rw [if_pos hz] at h
        cases j with
        | zero => simpa [mandelIterFrom] using hz
        | succ j' =>
            rw [mandelIterFrom_succ_shift]
            exact ih (stepC c z) j' (Nat.lt_of_succ_lt_succ h)
      · rw [if_neg hz] at h
        exact absurd h (Nat.not_lt_zero j)

/-- If the loop stopped before exhausting its fuel, the orbit point at the
stopping index has magnitude at least the bailout. -/
theorem escapeGo_stop (c : Complex32) :
    ∀ (fuel : ℕ) (z : Complex32), escapeGo c z fuel < fuel →
      BAILOUT_RADIUS ^ 2 ≤ cNormSq (mandelIterFrom c z (escapeGo c z fuel)) := by
  intro fuel
  induction fuel with
  | zero => intro z h; exact absurd h (Nat.not_lt_zero _)
  | succ n ih =>
      intro z h
      rw [escapeGo] at h ⊢
      by_cases hz : cNormSq z < BAILOUT_RADIUS ^ 2
      · rw [if_pos hz] at h ⊢
        rw [mandelIterFrom_succ_shift]
        exact ih (stepC c z) (Nat.lt_of_succ_lt_succ h)
      · rw [if_neg hz] at h ⊢
        simpa [mandelIterFrom] using not_lt.mp hz

/-- A point with squared magnitude above the bailout square escapes after
exactly one iteration: the first step moves `z` from `0` to `c`, and the
loop guard then fails. -/
theorem escapeCount_of_normSq_gt (c : Complex32) (h : BAILOUT_RADIUS ^ 2 < cNormSq c) :
    escapeCount c = 1 := by
  have h0 : cNormSq czero < BAILOUT_RADIUS ^ 2 := by
    norm_num [cNormSq, czero, BAILOUT_RADIUS]
  rw [escapeCount, BAILOUT_ITERATIONS, escapeGo, if_pos h0, stepC_zero, escapeGo,
    if_neg (not_lt.mpr (le_of_lt h))]

/-- A pixel the renderer colors white classifies as never-escaped, hence its
plane point has squared magnitude at most the bailout square. -/
theorem renderedRaster_consistent : ConsistentRaster renderedRaster := by
  intro a b hab
  rw [renderedRaster] at hab
  by_cases h : escapeCount (coordinate_to_complex (a, b)) < BAILOUT_ITERATIONS
  · rw [if_pos h] at hab
    exact absurd hab (by decide)
  · exact Nat.le_antisymm (escapeCount_le _) (not_lt.mp h)

/-- White pixels of a consistent raster map to plane points of squared
magnitude at most `4`. -/
theorem normSq_le_of_white (img : Raster) (himg : ConsistentRaster img) (a b : ℕ)
    (hab : img a b = whiteC) : cNormSq (coordinate_to_complex (a, b)) ≤ BAILOUT_RADIUS ^ 2 := by
  by_contra hgt
  have h1 : escapeCount (coordinate_to_complex (a, b)) = 1 :=
    escapeCount_of_normSq_gt _ (not_le.mp hgt)
  have h2 := himg a b hab
  rw [h1] at h2
  exact absurd h2 (by decide)

/-- Casting a small natural number through the saturating float-to-`u32`
conversion is the identity. -/
theorem f32ToU32_natCast (n : ℕ) (h : n ≤ 2 ^ 32 - 1) : f32ToU32 (n : ℚ) = n := by
  rw [f32ToU32, if_neg (not_lt.mpr (Nat.cast_nonneg n))]
  rw [Int.floor_natCast]
  have h' : n ≤ 4294967295 := by omega
  simp [Nat.min_eq_left h']

/-- The result of `walkLast` is the fold's initial pixel or a pixel the raster
colors white. -/
theorem walkLast_white (img : Raster) :
    ∀ (l : List (ℤ × ℤ)) (last : ℕ × ℕ),
      walkLast img l last = last ∨
        img (walkLast img l last).1 (walkLast img l last).2 = whiteC := by
  intro l
  induction l with
  | nil => intro last; left; rfl
  | cons p rest ih =>
      intro last
      rw [walkLast]
      by_cases hp : img (pxOf p).1 (pxOf p).2 = whiteC
      · rw [if_pos hp]
        rcases ih (pxOf p) with h | h
        · right; rw [h]; exact hp
        · right; exact h
      · rw [if_neg hp]; left; rfl

/-- The plane origin maps to the pixel `(1980, 1080)`. -/
theorem originPixel_eq : originPixel = (1980, 1080) := by
  norm_num [originPixel, complex_to_coordinate, f32ToU32, IMG_WIDTH, IMG_HEIGHT]
  exact ⟨rfl, rfl⟩

/-- The pixel `(1980, 1080)` maps back to the plane origin exactly. -/
theorem ctc_center : coordinate_to_complex (1980, 1080) = czero := by
  norm_num [coordinate_to_complex, czero, IMG_WIDTH, IMG_HEIGHT, Complex32.mk.injEq]

/-- The two octant transforms are inverse to each other. -/
theorem fromOctant0_toOctant0 (o : ℕ) (p : ℤ × ℤ) : fromOctant0 o (toOctant0 o p) = p := by
  rcases p with ⟨a, b⟩
  rcases o with _ | _ | _ | _ | _ | _ | _ | _ | o
  all_goals simp [toOctant0, fromOctant0]

/-- The yielded list is empty or begins with the start point. -/
theorem bresPoints_head (s e : ℤ × ℤ) :
    bresPoints s e = [] ∨ ∃ t, bresPoints s e = s :: t := by
  rw [bresPoints]
  rcases hn : ((bresNew s e).x1 - (bresNew s e).x).toNat with _ | m
  · left; rfl
  · by_cases hxx : (bresNew s e).x1 ≤ (bresNew s e).x
    · left; rw [bresRun, if_pos hxx]
    · right
      refine ⟨bresRun m (bresStep (bresNew s e)).2, ?_⟩
      rw [bresRun, if_neg hxx]
      have hhead : (bresStep (bresNew s e)).1 = s := by
        show fromOctant0 (bresNew s e).octant ((bresNew s e).x, (bresNew s e).y) = s
        show fromOctant0 (octantFromPoints s e)
          ((toOctant0 (octantFromPoints s e) s).1, (toOctant0 (octantFromPoints s e) s).2) = s
        rw [Prod.mk.eta]
        exact fromOctant0_toOctant0 _ s
      rw [hhead]

/-- After `Octant::from_points` picks the octant, the transformed deltas lie
in octant 0: the minor delta is nonnegative and at most the major delta. -/
theorem octant0_deltas (s e : ℤ × ℤ) :
    0 ≤ (toOctant0 (octantFromPoints s e) e).2 - (toOctant0 (octantFromPoints s e) s).2 ∧
      (toOctant0 (octantFromPoints s e) e).2 - (toOctant0 (octantFromPoints s e) s).2 ≤
        (toOctant0 (octantFromPoints s e) e).1 - (toOctant0 (octantFromPoints s e) s).1 := by
  rcases s with ⟨sx, sy⟩
  rcases e with ⟨ex, ey⟩
  simp only [octantFromPoints]
  split_ifs with h1 h2 h3 h3 h2 h3 h3 <;> simp [toOctant0] <;> omega

/-- The map `from_octant0` carries a point inside a coordinate box to a point inside
the transformed box. -/
theorem fromOctant0_mem_box (o : ℕ) (a b la lb ua ub : ℤ)
    (h1 : la ≤ a) (h2 : a ≤ ua) (h3 : lb ≤ b) (h4 : b ≤ ub) :
    min (fromOctant0 o (la, lb)).1 (fromOctant0 o (ua, ub)).1 ≤ (fromOctant0 o (a, b)).1 ∧
      (fromOctant0 o (a, b)).1 ≤ max (fromOctant0 o (la, lb)).1 (fromOctant0 o (ua, ub)).1 ∧
      min (fromOctant0 o (la, lb)).2 (fromOctant0 o (ua, ub)).2 ≤ (fromOctant0 o (a, b)).2 ∧
      (fromOctant0 o (a, b)).2 ≤ max (fromOctant0 o (la, lb)).2 (fromOctant0 o (ua, ub)).2 := by
  rcases o with _ | _ | _ | _ | _ | _ | _ | _ | o <;> simp [fromOctant0] <;> omega

/-- The map `from_octant0` preserves coordinatewise closeness. -/
theorem fromOctant0_close (o : ℕ) (a b c d : ℤ)
    (h1 : a - c ≤ 1) (h2 : c - a ≤ 1) (h3 : b - d ≤ 1) (h4 : d - b ≤ 1) :
    (fromOctant0 o (a, b)).1 - (fromOctant0 o (c, d)).1 ≤ 1 ∧
      (fromOctant0 o (c, d)).1 - (fromOctant0 o (a, b)).1 ≤ 1 ∧
      (fromOctant0 o (a, b)).2 - (fromOctant0 o (c, d)).2 ≤ 1 ∧
      (fromOctant0 o (c, d)).2 - (fromOctant0 o (a, b)).2 ≤ 1 := by
  rcases o with _ | _ | _ | _ | _ | _ | _ | _ | o <;> simp [fromOctant0] <;> omega

/-- Unfolding of `Bresenham::new` into its stored fields. -/
theorem bresNew_eq (s e : ℤ × ℤ) :
    bresNew s e =
      ⟨(toOctant0 (octantFromPoints s e) s).1, (toOctant0 (octantFromPoints s e) s).2,
        (toOctant0 (octantFromPoints s e) e).1 - (toOctant0 (octantFromPoints s e) s).1,
        (toOctant0 (octantFromPoints s e) e).2 - (toOctant0 (octantFromPoints s e) s).2,
        (toOctant0 (octantFromPoints s e) e).1,
        ((toOctant0 (octantFromPoints s e) e).2 - (toOctant0 (octantFromPoints s e) s).2) -
          ((toOctant0 (octantFromPoints s e) e).1 - (toOctant0 (octantFromPoints s e) s).1),
        octantFromPoints s e⟩ := rfl

/-- Invariant-carrying specification of the iterator loop in octant-0
coordinates: with `1 ≤ dx`, `0 ≤ dy ≤ dx`, start `(X0, Y0)` and target column
`x1 = X0 + dx`, a state whose `diff` satisfies the Bresenham error invariant
yields exactly `x1 - x` points; every yielded point is the `fromOctant0`
image of a point of the half-open box, and the final yielded point sits in
column `x1 - 1` within one row of `Y0 + dy`. -/
theorem bresRun_spec (dx dy x1 : ℤ) (o : ℕ) (X0 Y0 : ℤ)
    (hdx : 1 ≤ dx) (hdy : 0 ≤ dy) (hdydx : dy ≤ dx) (hx1 : x1 = X0 + dx) :
    ∀ (n : ℕ) (x y diff : ℤ),
      x1 - x = (n : ℤ) →
      X0 ≤ x →
      diff = (x - X0 + 1) * dy - (y - Y0 + 1) * dx →
      -dx ≤ diff →
      diff ≤ dy - 1 →
      Y0 ≤ y →
      (bresRun n ⟨x, y, dx, dy, x1, diff, o⟩).length = n ∧
      (∀ q ∈ bresRun n ⟨x, y, dx, dy, x1, diff, o⟩, ∃ a b : ℤ,
        q = fromOctant0 o (a, b) ∧ x ≤ a ∧ a < x1 ∧ y ≤ b ∧ b ≤ Y0 + dy) ∧
      (1 ≤ n → ∃ c : ℤ,
        (bresRun n ⟨x, y, dx, dy, x1, diff, o⟩).getLast? = some (fromOctant0 o (x1 - 1, c)) ∧
        Y0 + dy - 1 ≤ c ∧ c ≤ Y0 + dy ∧ Y0 ≤ c) := by
  intro n
  induction n with
  | zero =>
      intro x y diff hxn hX0x hdiff hlo hup hY0y
      refine ⟨rfl, ?_, ?_⟩
      · intro q hq
        exact absurd hq (List.not_mem_nil q)
      · intro h1
        exact absurd h1 (by norm_num)
  | succ m ih =>
      intro x y diff hxn hX0x hdiff hlo hup hY0y
      have hxlt : x < x1 := by
        push_cast at hxn
        omega
      have hnotle : ¬ x1 ≤ x := not_le.mpr hxlt
      have hxle : x - X0 + 1 ≤ dx := by omega
      have hyb : y ≤ Y0 + dy := by
        have hs1 : (x - X0 + 1) * dy ≤ dx * dy := mul_le_mul_of_nonneg_right hxle hdy
        have hs2 : (y - Y0 + 1) * dx ≤ (dy + 1) * dx := by nlinarith [hdiff, hlo, hs1]
        have hs3 : y - Y0 + 1 ≤ dy + 1 := le_of_mul_le_mul_right hs2 (by omega)
        omega
      have hlow_last : x - X0 + 1 = dx → Y0 + dy - 1 ≤ y := by
        intro hxeq
        by_contra hby
        push_neg at hby
        have ht : 1 ≤ dy - (y - Y0 + 1) := by omega
        have h1 : dx ≤ (dy - (y - Y0 + 1)) * dx := le_mul_of_one_le_left (by omega) ht
        have h2 : diff = (dy - (y - Y0 + 1)) * dx := by
          rw [hdiff, hxeq]
          ring
        linarith [h1, h2, hup, hdydx]
      simp only [bresRun, bresStep, hnotle, if_false]
      by_cases hd : 0 ≤ diff
      · rw [if_pos hd]
        have hxn' : x1 - (x + 1) = (m : ℤ) := by push_cast at hxn ⊢; omega
        have hdiff' : diff - dx + dy = (x + 1 - X0 + 1) * dy - (y + 1 - Y0 + 1) * dx := by
          rw [hdiff]
          ring
        have hlo' : -dx ≤ diff - dx + dy := by omega
        have hup' : diff - dx + dy ≤ dy - 1 := by omega
        obtain ⟨ihlen, ihmem, ihlast⟩ :=
          ih (x + 1) (y + 1) (diff - dx + dy) hxn' (by omega) hdiff' hlo' hup' (by omega)
        refine ⟨by simp [ihlen], ?_, ?_⟩
        · intro q hq
          rcases List.mem_cons.mp hq with hq | hq
          · exact ⟨x, y, hq, le_refl x, hxlt, le_refl y, hyb⟩
          · obtain ⟨a, b, hab, ha1, ha2, hb1, hb2⟩ := ihmem q hq
            exact ⟨a, b, hab, by omega, ha2, by omega, hb2⟩
        · intro _
          rcases Nat.eq_zero_or_pos m with hm | hm
          · subst hm
            have hxeq : x = x1 - 1 := by push_cast at hxn; omega
            refine ⟨y, ?_, hlow_last (by omega), hyb, hY0y⟩
            simp only [bresRun, List.getLast?_singleton]
            rw [hxeq]
          · obtain ⟨c, hcl, hc1, hc2, hc3⟩ := ihlast hm
            have htne : bresRun m ⟨x + 1, y + 1, dx, dy, x1, diff - dx + dy, o⟩ ≠ [] := by
              intro hnil
              rw [hnil] at ihlen
              simp at ihlen
              omega
            obtain ⟨hd', tl', htl⟩ := List.exists_cons_of_ne_nil htne
            rw [htl, List.getLast?_cons_cons]
            rw [htl] at hcl
            exact ⟨c, hcl, hc1, hc2, hc3⟩
      · rw [if_neg hd]
        have hxn' : x1 - (x + 1) = (m : ℤ) := by push_cast at hxn ⊢; omega
        have hdiff' : diff + dy = (x + 1 - X0 + 1) * dy - (y - Y0 + 1) * dx := by
          rw [hdiff]
          ring
        have hlo' : -dx ≤ diff + dy := by omega
        have hup' : diff + dy ≤ dy - 1 := by omega
        obtain ⟨ihlen, ihmem, ihlast⟩ :=
          ih (x + 1) y (diff + dy) hxn' (by omega) hdiff' hlo' hup' hY0y
        refine ⟨by simp [ihlen], ?_, ?_⟩
        · intro q hq
          rcases List.mem_cons.mp hq with hq | hq
          · exact ⟨x, y, hq, le_refl x, hxlt, le_refl y, hyb⟩
          · obtain ⟨a, b, hab, ha1, ha2, hb1, hb2⟩ := ihmem q hq
            exact ⟨a, b, hab, by omega, ha2, hb1, hb2⟩
        · intro _
          rcases Nat.eq_zero_or_pos m with hm | hm
          · subst hm
            have hxeq : x = x1 - 1 := by push_cast at hxn; omega
            refine ⟨y, ?_, hlow_last (by omega), hyb, hY0y⟩
            simp only [bresRun, List.getLast?_singleton]
            rw [hxeq]
          · obtain ⟨c, hcl, hc1, hc2, hc3⟩ := ihlast hm
            have htne : bresRun m ⟨x + 1, y, dx, dy, x1, diff + dy, o⟩ ≠ [] := by
              intro hnil
              rw [hnil] at ihlen
              simp at ihlen
              omega
            obtain ⟨hd', tl', htl⟩ := List.exists_cons_of_ne_nil htne
            rw [htl, List.getLast?_cons_cons]
            rw [htl] at hcl
            exact ⟨c, hcl, hc1, hc2, hc3⟩

/-- Every point yielded by `Bresenham::new(S, E)` lies inside the closed
coordinate box spanned by `S` and `E`. -/
theorem bresPoints_mem_box (S E p : ℤ × ℤ) (hp : p ∈ bresPoints S E) :
    min S.1 E.1 ≤ p.1 ∧ p.1 ≤ max S.1 E.1 ∧ min S.2 E.2 ≤ p.2 ∧ p.2 ≤ max S.2 E.2 := by
  obtain ⟨hdy0, hdydx0⟩ := octant0_deltas S E
  by_cases hdxpos : 1 ≤ (toOctant0 (octantFromPoints S E) E).1 -
      (toOctant0 (octantFromPoints S E) S).1
  · obtain ⟨hlen, hmem, hlast⟩ :=
      bresRun_spec
        ((toOctant0 (octantFromPoints S E) E).1 - (toOctant0 (octantFromPoints S E) S).1)
        ((toOctant0 (octantFromPoints S E) E).2 - (toOctant0 (octantFromPoints S E) S).2)
        ((toOctant0 (octantFromPoints S E) E).1)
        (octantFromPoints S E)
        ((toOctant0 (octantFromPoints S E) S).1)
        ((toOctant0 (octantFromPoints S E) S).2)
        hdxpos hdy0 hdydx0 (by ring)
        ((toOctant0 (octantFromPoints S E) E).1 - (toOctant0 (octantFromPoints S E) S).1).toNat
        ((toOctant0 (octantFromPoints S E) S).1)
        ((toOctant0 (octantFromPoints S E) S).2)
        ((toOctant0 (octantFromPoints S E) E).2 - (toOctant0 (octantFromPoints S E) S).2 -
          ((toOctant0 (octantFromPoints S E) E).1 - (toOctant0 (octantFromPoints S E) S).1))
        (Int.toNat_of_nonneg (by omega)).symm
        (le_refl _) (by ring) (by omega) (by omega) (le_refl _)
    have hp' : p ∈ bresRun
        ((toOctant0 (octantFromPoints S E) E).1 -
          (toOctant0 (octantFromPoints S E) S).1).toNat
        ⟨(toOctant0 (octantFromPoints S E) S).1, (toOctant0 (octantFromPoints S E) S).2,
          (toOctant0 (octantFromPoints S E) E).1 - (toOctant0 (octantFromPoints S E) S).1,
          (toOctant0 (octantFromPoints S E) E).2 - (toOctant0 (octantFromPoints S E) S).2,
          (toOctant0 (octantFromPoints S E) E).1,
          (toOctant0 (octantFromPoints S E) E).2 - (toOctant0 (octantFromPoints S E) S).2 -
            ((toOctant0 (octantFromPoints S E) E).1 -
              (toOctant0 (octantFromPoints S E) S).1),
          octantFromPoints S E⟩ := hp
    obtain ⟨a, b, hab, ha1, ha2, hb1, hb2⟩ := hmem p hp'
    have hb2' : b ≤ (toOctant0 (octantFromPoints S E) E).2 := by omega
    have hbox := fromOctant0_mem_box (octantFromPoints S E) a b
      ((toOctant0 (octantFromPoints S E) S).1) ((toOctant0 (octantFromPoints S E) S).2)
      ((toOctant0 (octantFromPoints S E) E).1) ((toOctant0 (octantFromPoints S E) E).2)
      ha1 (le_of_lt ha2) hb1 hb2'
    have hS : fromOctant0 (octantFromPoints S E)
        ((toOctant0 (octantFromPoints S E) S).1, (toOctant0 (octantFromPoints S E) S).2) = S :=
      fromOctant0_toOctant0 _ S
    have hE : fromOctant0 (octantFromPoints S E)
        ((toOctant0 (octantFromPoints S E) E).1, (toOctant0 (octantFromPoints S E) E).2) = E :=
      fromOctant0_toOctant0 _ E
    rw [hS, hE, ← hab] at hbox
    exact hbox
  · exfalso
    have hfz : ((toOctant0 (octantFromPoints S E) E).1 -
        (toOctant0 (octantFromPoints S E) S).1).toNat = 0 := by omega
    have : bresPoints S E = [] := by
      show bresRun ((toOctant0 (octantFromPoints S E) E).1 -
        (toOctant0 (octantFromPoints S E) S).1).toNat (bresNew S E) = []
      rw [hfz]
      rfl
    rw [this] at hp
    exact absurd hp (List.not_mem_nil p)

/-- When the major span is positive, the final yielded point exists, lies in
the box spanned by `S` and `E`, and is within one pixel of `E` in each
coordinate (the walk stops just short of the excluded endpoint). -/
theorem bresPoints_last_near (S E : ℤ × ℤ)
    (hdxpos : 1 ≤ (toOctant0 (octantFromPoints S E) E).1 -
      (toOctant0 (octantFromPoints S E) S).1) :
    ∃ q : ℤ × ℤ, (bresPoints S E).getLast? = some q ∧
      q.1 - E.1 ≤ 1 ∧ E.1 - q.1 ≤ 1 ∧ q.2 - E.2 ≤ 1 ∧ E.2 - q.2 ≤ 1 ∧
      min S.1 E.1 ≤ q.1 ∧ q.1 ≤ max S.1 E.1 ∧ min S.2 E.2 ≤ q.2 ∧ q.2 ≤ max S.2 E.2 := by
  obtain ⟨hdy0, hdydx0⟩ := octant0_deltas S E
  obtain ⟨hlen, hmem, hlast⟩ :=
    bresRun_spec
      ((toOctant0 (octantFromPoints S E) E).1 - (toOctant0 (octantFromPoints S E) S).1)
      ((toOctant0 (octantFromPoints S E) E).2 - (toOctant0 (octantFromPoints S E) S).2)
      ((toOctant0 (octantFromPoints S E) E).1)
      (octantFromPoints S E)
      ((toOctant0 (octantFromPoints S E) S).1)
      ((toOctant0 (octantFromPoints S E) S).2)
      hdxpos hdy0 hdydx0 (by ring)
      ((toOctant0 (octantFromPoints S E) E).1 - (toOctant0 (octantFromPoints S E) S).1).toNat
      ((toOctant0 (octantFromPoints S E) S).1)
      ((toOctant0 (octantFromPoints S E) S).2)
      ((toOctant0 (octantFromPoints S E) E).2 - (toOctant0 (octantFromPoints S E) S).2 -
        ((toOctant0 (octantFromPoints S E) E).1 - (toOctant0 (octantFromPoints S E) S).1))
      (Int.toNat_of_nonneg (by omega)).symm
      (le_refl _) (by ring) (by omega) (by omega) (le_refl _)
  obtain ⟨c, hcl, hc1, hc2, hc3⟩ := hlast (by omega)
  have hE : fromOctant0 (octantFromPoints S E)
      ((toOctant0 (octantFromPoints S E) E).1, (toOctant0 (octantFromPoints S E) E).2) = E :=
    fromOctant0_toOctant0 _ E
  have hS : fromOctant0 (octantFromPoints S E)
      ((toOctant0 (octantFromPoints S E) S).1, (toOctant0 (octantFromPoints S E) S).2) = S :=
    fromOctant0_toOctant0 _ S
  have hc2' : c ≤ (toOctant0 (octantFromPoints S E) E).2 := by omega
  have hc1' : (toOctant0 (octantFromPoints S E) E).2 - 1 ≤ c := by omega
  have hclose := fromOctant0_close (octantFromPoints S E)
    ((toOctant0 (octantFromPoints S E) E).1 - 1) c
    ((toOctant0 (octantFromPoints S E) E).1) ((toOctant0 (octantFromPoints S E) E).2)
    (by omega) (by omega) (by omega) (by omega)
  have hbox := fromOctant0_mem_box (octantFromPoints S E)
    ((toOctant0 (octantFromPoints S E) E).1 - 1) c
    ((toOctant0 (octantFromPoints S E) S).1) ((toOctant0 (octantFromPoints S E) S).2)
    ((toOctant0 (octantFromPoints S E) E).1) ((toOctant0 (octantFromPoints S E) E).2)
    (by omega) (by omega) hc3 hc2'
  rw [hE] at hclose hbox
  rw [hS] at hbox
  refine ⟨fromOctant0 (octantFromPoints S E) ((toOctant0 (octantFromPoints S E) E).1 - 1, c),
    hcl, hclose.1, hclose.2.1, hclose.2.2.1, hclose.2.2.2,
    hbox.1, hbox.2.1, hbox.2.2.1, hbox.2.2.2⟩

/-- Every pixel read by the loop of `compute_radius` is the cast of a yielded
point of the walk. -/
theorem walkReads_subset (img : Raster) :
    ∀ (l : List (ℤ × ℤ)) (p : ℕ × ℕ), p ∈ walkReads img l → ∃ z ∈ l, p = pxOf z := by
  intro l
  induction l with
  | nil =>
      intro p hp
      exact absurd hp (List.not_mem_nil p)
  | cons q rest ih =>
      intro p hp
      rw [walkReads] at hp
      by_cases hq : img (pxOf q).1 (pxOf q).2 = whiteC
      · rw [if_pos hq] at hp
        rcases List.mem_cons.mp hp with h | h
        · exact ⟨q, List.mem_cons_self q rest, h⟩
        · obtain ⟨z, hz, hpz⟩ := ih p h
          exact ⟨z, List.mem_cons_of_mem q hz, hpz⟩
      · rw [if_neg hq] at hp
        exact ⟨q, List.mem_cons_self q rest, List.mem_singleton.mp hp⟩

/-- On a walk whose pixels are all white, `walkLast` returns the cast of the
final yielded point. -/
theorem walkLast_all_white_ne_nil (img : Raster) :
    ∀ (l : List (ℤ × ℤ)) (last : ℕ × ℕ), l ≠ [] →
      (∀ p ∈ l, img (pxOf p).1 (pxOf p).2 = whiteC) →
      ∃ q : ℤ × ℤ, l.getLast? = some q ∧ walkLast img l last = pxOf q := by
  intro l
  induction l with
  | nil =>
      intro last h _
      exact absurd rfl h
  | cons p rest ih =>
      intro last _ hall
      have hp : img (pxOf p).1 (pxOf p).2 = whiteC := hall p (List.mem_cons_self p rest)
      rw [walkLast, if_pos hp]
      rcases eq_or_ne rest [] with hr | hr
      · subst hr
        exact ⟨p, by simp, by rw [walkLast]⟩
      · obtain ⟨q, hq1, hq2⟩ := ih (pxOf p) hr fun z hz => hall z (List.mem_cons_of_mem p hz)
        obtain ⟨hd', tl', htl⟩ := List.exists_cons_of_ne_nil hr
        refine ⟨q, ?_, hq2⟩
        rw [htl, List.getLast?_cons_cons, ← htl]
        exact hq1

/-- A small nonnegative `isize` survives the `as u32` cast unchanged. -/
theorem isizeToU32_small (a : ℤ) (h0 : 0 ≤ a) (h1 : a < 4294967296) :
    ((isizeToU32 a : ℕ) : ℤ) = a := by
  rw [isizeToU32, Int.emod_eq_of_lt h0 (by norm_num; omega)]
  exact Int.toNat_of_nonneg h0

/-- For an in-range nonnegative argument the saturating cast is the floor. -/
theorem f32ToU32_eq_floor (q : ℚ) (h0 : 0 ≤ q) (h1 : q ≤ 4294967295) :
    ((f32ToU32 q : ℕ) : ℤ) = ⌊q⌋ := by
  rw [f32ToU32, if_neg (not_lt.mpr h0)]
  have hfl0 : 0 ≤ ⌊q⌋ := Int.floor_nonneg.mpr h0
  have hfl1 : ⌊q⌋ ≤ 4294967295 := by
    have h2 : ⌊q⌋ ≤ ⌊(4294967295 : ℚ)⌋ := Int.floor_le_floor h1
    simpa using h2
  have hmin : min (Int.toNat ⌊q⌋) (2 ^ 32 - 1) = Int.toNat ⌊q⌋ := by
    apply Nat.min_eq_left
    omega
  rw [hmin, Int.toNat_of_nonneg hfl0]

/-- Closed form of the pixel mapping: `990` pixels per plane unit around the
center pixel `(1980, 1080)`. -/
theorem complex_to_coordinate_closed (c : Complex32) :
    complex_to_coordinate c =
      (f32ToU32 (990 * c.re + 1980), f32ToU32 (1080 - 990 * c.im)) := by
  simp only [complex_to_coordinate, IMG_WIDTH, IMG_HEIGHT]
  rw [Prod.mk.injEq]
  constructor
  · congr 1
    push_cast
    ring
  · congr 1
    push_cast
    ring

/-- Closed form of the squared magnitude of a pixel's plane point. -/
theorem cNormSq_ctc (a b : ℕ) :
    cNormSq (coordinate_to_complex (a, b)) =
      (((a : ℚ) - 1980) ^ 2 + ((b : ℚ) - 1080) ^ 2) / 990 ^ 2 := by
  simp only [coordinate_to_complex, cNormSq, IMG_WIDTH, IMG_HEIGHT]
  push_cast
  ring

/-- Arithmetic core of the full-interior radius bound: a point within the
stated window of `1980 * (cos, -sin)` has squared distance from the center
between `1977^2` and `1983^2`. -/
theorem radius_bound_arith (ct st u v : ℚ) (hunit : ct ^ 2 + st ^ 2 = 1)
    (hu1 : 1980 * ct - 2 < u) (hu2 : u ≤ 1980 * ct + 1)
    (hv1 : -(1980 * st) - 2 < v) (hv2 : v ≤ -(1980 * st) + 1) :
    3908529 ≤ u ^ 2 + v ^ 2 ∧ u ^ 2 + v ^ 2 ≤ 3932289 := by
  obtain ⟨a, rfl⟩ : ∃ a, u = 1980 * ct + a := ⟨u - 1980 * ct, by ring⟩
  obtain ⟨b, rfl⟩ : ∃ b, v = -(1980 * st) + b := ⟨v + 1980 * st, by ring⟩
  have ha1 : -2 < a := by linarith
  have ha2 : a ≤ 1 := by linarith
  have hb1 : -2 < b := by linarith
  have hb2 : b ≤ 1 := by linarith
  have haa : a ^ 2 ≤ 4 := by nlinarith
  have hbb : b ^ 2 ≤ 4 := by nlinarith
  have key : (ct * a - st * b) ^ 2 + (ct * b + st * a) ^ 2 = a ^ 2 + b ^ 2 := by
    linear_combination (a ^ 2 + b ^ 2) * hunit
  have ht2 : (ct * a - st * b) ^ 2 ≤ 8 := by nlinarith [sq_nonneg (ct * b + st * a)]
  have htl : -(17 / 6) ≤ ct * a - st * b := by nlinarith [sq_nonneg (ct * a - st * b + 3)]
  have hth : ct * a - st * b ≤ 17 / 6 := by nlinarith [sq_nonneg (ct * a - st * b - 3)]
  have hexp : (1980 * ct + a) ^ 2 + (-(1980 * st) + b) ^ 2 =
      3920400 + 3960 * (ct * a - st * b) + a ^ 2 + b ^ 2 := by
    linear_combination 3920400 * hunit
  constructor
  · nlinarith [sq_nonneg a, sq_nonneg b]
  · nlinarith [haa, hbb]

/-- The origin pixel maps back to a point of squared magnitude exactly `0`. -/
theorem normSq_origin_zero : cNormSq (coordinate_to_complex originPixel) = 0 := by
  rw [originPixel_eq, ctc_center]
  norm_num [cNormSq, czero]

/-- Casting the origin pixel to `isize` coordinates and back is the identity. -/
theorem pxOf_pixelZ_origin : pxOf (pixelZ originPixel) = originPixel := by
  rw [originPixel_eq]
  decide

-- ################################################################
-- Claim theorems: coordinate mapper and evaluator
-- ################################################################

/-- C6.  For every pixel coordinate `(x, y)` with `x < W` and `y < H`, mapping
through `coordinate_to_complex` and back through `complex_to_coordinate`
yields a coordinate within `±1` of `(x, y)` in each component.  (In the exact
model the round trip is in fact the identity, which is stated as well.) -/
theorem c6_roundtrip_within_one (x y : ℕ) (hx : x < IMG_WIDTH) (hy : y < IMG_HEIGHT) :
    complex_to_coordinate (coordinate_to_complex (x, y)) = (x, y) ∧
      ((complex_to_coordinate (coordinate_to_complex (x, y))).1 : ℤ) - (x : ℤ) ∈
        Set.Icc (-1 : ℤ) 1 ∧
      ((complex_to_coordinate (coordinate_to_complex (x, y))).2 : ℤ) - (y : ℤ) ∈
        Set.Icc (-1 : ℤ) 1 := by
  have hx32 : x ≤ 2 ^ 32 - 1 := by
    have h : x < 3960 := hx
    omega
  have hy32 : y ≤ 2 ^ 32 - 1 := by
    have h : y < 2160 := hy
    omega
  have hxq : (2 * ((x : ℚ) / (IMG_WIDTH : ℚ) * 2 - 1) / 2 + 1) / 2 * (IMG_WIDTH : ℚ)
      = (x : ℚ) := by
    simp only [IMG_WIDTH]
    push_cast
    ring
  have hyq : (1 - (2 * (IMG_HEIGHT : ℚ) / (IMG_WIDTH : ℚ) *
        ((1 - (y : ℚ) / (IMG_HEIGHT : ℚ)) * 2 - 1) / (2 * (IMG_HEIGHT : ℚ) / (IMG_WIDTH : ℚ)) + 1)
        / 2) * (IMG_HEIGHT : ℚ) = (y : ℚ) := by
    simp only [IMG_WIDTH, IMG_HEIGHT]
    push_cast
    ring
  have hmain : complex_to_coordinate (coordinate_to_complex (x, y)) = (x, y) := by
    simp only [complex_to_coordinate, coordinate_to_complex]
    rw [hxq, hyq, f32ToU32_natCast x hx32, f32ToU32_natCast y hy32]
  refine ⟨hmain, ?_, ?_⟩
  · rw [hmain]; simp
  · rw [hmain]; simp

/-- C6 witness at a concrete pixel. -/
theorem c6_roundtrip_within_one_witness :
    complex_to_coordinate (coordinate_to_complex (7, 5)) = (7, 5) ∧
      ((complex_to_coordinate (coordinate_to_complex (7, 5))).1 : ℤ) - (7 : ℤ) ∈
        Set.Icc (-1 : ℤ) 1 ∧
      ((complex_to_coordinate (coordinate_to_complex (7, 5))).2 : ℤ) - (5 : ℤ) ∈
        Set.Icc (-1 : ℤ) 1 :=
  c6_roundtrip_within_one 7 5 (by norm_num [IMG_WIDTH]) (by norm_num [IMG_HEIGHT])

/-- C8.  The point `0 + 0i` never escapes: its iteration count reaches the
maximum of `1000`, so it is always classified interior. -/
theorem c8_origin_interior : escapeCount czero = BAILOUT_ITERATIONS := by
  rw [escapeCount]
  exact escapeGo_zero BAILOUT_ITERATIONS

/-- C9.  Any point with `|c| > 2` (equivalently `|c|^2 > 4`) stops after
exactly one iteration: `|0^2 + c| = |c| > 2` fails the guard on the first
check after the first step, so the count is `1` and the point is classified
exterior (the count is below the cap). -/
theorem c9_far_points_escape_in_one (c : Complex32) (h : BAILOUT_RADIUS ^ 2 < cNormSq c) :
    escapeCount c = 1 ∧ escapeCount c < BAILOUT_ITERATIONS := by
  refine ⟨escapeCount_of_normSq_gt c h, ?_⟩
  rw [escapeCount_of_normSq_gt c h]
  norm_num [BAILOUT_ITERATIONS]

/-- C9 witness at `c = 3`. -/
theorem c9_far_points_escape_in_one_witness :
    escapeCount ⟨3, 0⟩ = 1 ∧ escapeCount ⟨3, 0⟩ < BAILOUT_ITERATIONS :=
  c9_far_points_escape_in_one ⟨3, 0⟩ (by norm_num [cNormSq, BAILOUT_RADIUS])

/-- C10.  The mapping is exact at the origin: the plane point `(0, 0)` maps to
the center pixel `(W/2, H/2) = (1980, 1080)`, that pixel maps back exactly to
the plane origin (so its magnitude is exactly `0`), and consequently whenever
the sampler's walk ends at the origin pixel the returned radius is exactly
`0`, not merely a value near `0`. -/
theorem c10_center_exact :
    originPixel = (IMG_WIDTH / 2, IMG_HEIGHT / 2) ∧
      (IMG_WIDTH / 2, IMG_HEIGHT / 2) = ((1980 : ℕ), (1080 : ℕ)) ∧
      coordinate_to_complex (1980, 1080) = czero ∧
      cNormSq (coordinate_to_complex originPixel) = 0 ∧
      ∀ img : Raster, ∀ e : ℕ × ℕ,
        radiusLastToward img e = originPixel → radiusSqToward img e = 0 := by
  have h2 : (IMG_WIDTH / 2, IMG_HEIGHT / 2) = ((1980 : ℕ), (1080 : ℕ)) := by
    norm_num [IMG_WIDTH, IMG_HEIGHT]
  have hnorm : cNormSq (coordinate_to_complex originPixel) = 0 := by
    rw [originPixel_eq, ctc_center]
    norm_num [cNormSq, czero]
  refine ⟨by rw [originPixel_eq, h2], h2, ctc_center, hnorm, ?_⟩
  intro img e hlast
  rw [radiusSqToward, hlast, hnorm]

/-- C10 witness: instantiating the walk clause at a concrete raster for which
the walk certainly stops at the origin pixel. -/
theorem c10_center_exact_witness :
    radiusLastToward allBlackRaster (0, 0) = originPixel →
      radiusSqToward allBlackRaster (0, 0) = 0 :=
  c10_center_exact.2.2.2.2 allBlackRaster (0, 0)

/-- Unfolding of the escape loop body by one iteration. -/
theorem escapeGo_succ (c z : Complex32) (fuel : ℕ) :
    escapeGo c z (fuel + 1) =
      if cNormSq z < BAILOUT_RADIUS ^ 2 then escapeGo c (stepC c z) fuel + 1 else 0 := rfl

/-- C5 counterexample.  At `c = -2` the first iteration lands on `z = -2`
with `|z| = 2` exactly (`|z|^2 = 4`); the claim says the iteration continues
while `|z|` equals `2.0` exactly, but the loop guard `z.norm() < 2.0` fails
and the count stops at `1` (the code would then classify `-2` exterior even
though continuing at `|z| = 2` would keep the orbit bounded forever). -/
theorem c5_counterexample :
    cNormSq (mandelIter ⟨-2, 0⟩ 1) = BAILOUT_RADIUS ^ 2 ∧ escapeCount ⟨-2, 0⟩ = 1 := by
  have hzero : cNormSq czero < BAILOUT_RADIUS ^ 2 := by
    norm_num [cNormSq, czero, BAILOUT_RADIUS]
  have hc : ¬ cNormSq (⟨-2, 0⟩ : Complex32) < BAILOUT_RADIUS ^ 2 := by
    norm_num [cNormSq, BAILOUT_RADIUS]
  constructor
  · show cNormSq (mandelIterFrom ⟨-2, 0⟩ czero (0 + 1)) = BAILOUT_RADIUS ^ 2
    rw [mandelIterFrom_succ_shift, stepC_zero]
    show cNormSq ⟨-2, 0⟩ = BAILOUT_RADIUS ^ 2
    norm_num [cNormSq, BAILOUT_RADIUS]
  · rw [escapeCount]
    rw [show BAILOUT_ITERATIONS = 999 + 1 from by norm_num [BAILOUT_ITERATIONS]]
    rw [escapeGo_succ, if_pos hzero, stepC_zero]
    rw [show (999 : ℕ) = 998 + 1 from rfl]
    rw [escapeGo_succ, if_neg hc]

/-- C5 amended.  The escape iteration runs up to the fixed maximum of `1000`
iterations and stops early exactly when `|z|` reaches or exceeds the bailout
radius `2.0` (the guard is `|z| < 2.0`, so at `|z| = 2.0` exactly the
iteration stops): every orbit point strictly before the final count is below
the bailout, and if the loop stopped before the cap then the orbit point at
the stopping index has `|z|^2 ≥ 4`. -/
theorem c5_amended_bailout_at_two (c : Complex32) :
    escapeCount c ≤ BAILOUT_ITERATIONS ∧
      (∀ j : ℕ, j < escapeCount c → cNormSq (mandelIter c j) < BAILOUT_RADIUS ^ 2) ∧
      (escapeCount c < BAILOUT_ITERATIONS →
        BAILOUT_RADIUS ^ 2 ≤ cNormSq (mandelIter c (escapeCount c))) :=
  ⟨escapeCount_le c,
   fun j hj => escapeGo_before c BAILOUT_ITERATIONS czero j hj,
   fun h => escapeGo_stop c BAILOUT_ITERATIONS czero h⟩

/-- C5 amended witness at `c = -2` (a point where the loop stops with
`|z| = 2` exactly). -/
theorem c5_amended_bailout_at_two_witness :
    escapeCount ⟨-2, 0⟩ ≤ BAILOUT_ITERATIONS ∧
      (∀ j : ℕ, j < escapeCount ⟨-2, 0⟩ →
        cNormSq (mandelIter ⟨-2, 0⟩ j) < BAILOUT_RADIUS ^ 2) ∧
      (escapeCount ⟨-2, 0⟩ < BAILOUT_ITERATIONS →
        BAILOUT_RADIUS ^ 2 ≤ cNormSq (mandelIter ⟨-2, 0⟩ (escapeCount ⟨-2, 0⟩))) :=
  c5_amended_bailout_at_two ⟨-2, 0⟩

/-- C1 counterexample.  The center pixel `(1980, 1080)` is the plane origin,
which never escapes (iteration count reaches the maximum, i.e. it is
interior), yet the renderer colors it `[255, 255, 255]` (white), not black as
the claim requires. -/
theorem c1_counterexample :
    escapeCount (coordinate_to_complex (1980, 1080)) = BAILOUT_ITERATIONS ∧
      renderedRaster 1980 1080 = whiteC ∧ whiteC ≠ blackC := by
  have hcount : escapeCount (coordinate_to_complex (1980, 1080)) = BAILOUT_ITERATIONS := by
    rw [ctc_center, escapeCount]
    exact escapeGo_zero BAILOUT_ITERATIONS
  refine ⟨hcount, ?_, by decide⟩
  rw [renderedRaster, hcount]
  simp

/-- C7.  If the raster is not white at the origin pixel (the code's
non-interior condition there), the walk of `compute_radius` breaks on its
first read and returns the magnitude of the origin pixel mapped back to the
plane; that magnitude is exactly `0` (`~0` in the claim's words). -/
theorem c7_nonwhite_origin_radius_zero (img : Raster) (e : ℕ × ℕ)
    (h : img originPixel.1 originPixel.2 ≠ whiteC) :
    radiusSqToward img e = cNormSq (coordinate_to_complex originPixel) ∧
      radiusSqToward img e = 0 := by
  have hlast : radiusLastToward img e = originPixel := by
    rw [radiusLastToward]
    rcases bresPoints_head (pixelZ originPixel) (pixelZ e) with hl | ⟨t, hl⟩
    · rw [radiusWalkToward, hl, walkLast]
    · rw [radiusWalkToward, hl, walkLast, pxOf_pixelZ_origin, if_neg h]
  constructor
  · rw [radiusSqToward, hlast]
  · rw [radiusSqToward, hlast]
    exact normSq_origin_zero

/-- C7 witness on the all-black raster. -/
theorem c7_nonwhite_origin_radius_zero_witness :
    radiusSqToward allBlackRaster (0, 0) = cNormSq (coordinate_to_complex originPixel) ∧
      radiusSqToward allBlackRaster (0, 0) = 0 :=
  c7_nonwhite_origin_radius_zero allBlackRaster (0, 0) (by simp [allBlackRaster]; decide)

/-- C3.  For every endpoint pixel the walk can be aimed at — hence for every
angle theta — and for every fully-rendered raster consistent with the
viewport (its white pixels really classify as never-escaped, which holds for
the raster `main` renders), the squared value returned by `compute_radius`
lies in `[0, 4]`; equivalently the returned radius lies in `[0, 2]`. -/
theorem c3_radius_in_range (img : Raster) (himg : ConsistentRaster img) (e : ℕ × ℕ) :
    0 ≤ radiusSqToward img e ∧ radiusSqToward img e ≤ BAILOUT_RADIUS ^ 2 := by
  have h0 : 0 ≤ radiusSqToward img e := by
    rw [radiusSqToward, cNormSq]
    have h1 := mul_self_nonneg (coordinate_to_complex (radiusLastToward img e)).re
    have h2 := mul_self_nonneg (coordinate_to_complex (radiusLastToward img e)).im
    linarith
  refine ⟨h0, ?_⟩
  rcases walkLast_white img (radiusWalkToward e) originPixel with h | h
  · have hlast : radiusLastToward img e = originPixel := h
    rw [radiusSqToward, hlast, normSq_origin_zero]
    norm_num [BAILOUT_RADIUS]
  · have hwhite := normSq_le_of_white img himg
      (walkLast img (radiusWalkToward e) originPixel).1
      (walkLast img (radiusWalkToward e) originPixel).2 h
    rw [radiusSqToward, radiusLastToward]
    rw [Prod.mk.eta] at hwhite
    exact hwhite

/-- C3 witness on the raster rendered by `main`. -/
theorem c3_radius_in_range_witness :
    0 ≤ radiusSqToward renderedRaster (0, 0) ∧
      radiusSqToward renderedRaster (0, 0) ≤ BAILOUT_RADIUS ^ 2 :=
  c3_radius_in_range renderedRaster renderedRaster_consistent (0, 0)

/-- The endpoint pixel for the angle `3π/2` (direction `(cos, sin) = (0, -1)`):
its row `3060` lies outside the raster height `2160`. -/
theorem endpointPixel_down : endpointPixel 0 (-1) = (1980, 3060) := by
  norm_num [endpointPixel, complex_to_coordinate, f32ToU32, IMG_WIDTH, IMG_HEIGHT]
  exact ⟨rfl, rfl⟩

/-- A run with zero minor delta and negative error walks straight along the
major axis. -/
theorem bresRun_flat (dx x1 : ℤ) (o : ℕ) :
    ∀ (n : ℕ) (x y diff : ℤ), diff < 0 → x1 - x = (n : ℤ) →
      bresRun n ⟨x, y, dx, 0, x1, diff, o⟩ =
        (List.range n).map fun (k : ℕ) => fromOctant0 o (x + (k : ℤ), y) := by
  intro n
  induction n with
  | zero =>
      intro x y diff _ _
      rfl
  | succ m ih =>
      intro x y diff hd hxn
      have hlt : ¬ x1 ≤ x := by push_cast at hxn; omega
      simp only [bresRun, bresStep, hlt, if_false]
      rw [if_neg (by omega : ¬ (0 : ℤ) ≤ diff)]
      rw [ih (x + 1) y (diff + 0) (by omega) (by push_cast at hxn ⊢; omega)]
      rw [List.range_succ_eq_map, List.map_cons, List.map_map]
      congr 1
      · norm_num
      · refine List.map_congr_left ?_
        intro k _
        show fromOctant0 o (x + 1 + (k : ℤ), y) = fromOctant0 o (x + ((k + 1 : ℕ) : ℤ), y)
        congr 2
        push_cast
        ring

/-- Reads on the all-white raster never break: every yielded point is read. -/
theorem walkReads_allWhite : ∀ l : List (ℤ × ℤ),
    walkReads allWhiteRaster l = l.map pxOf := by
  intro l
  induction l with
  | nil => rfl
  | cons p rest ih => simp [walkReads, allWhiteRaster, ih]

/-- The walk toward `(1980, 3060)` is the vertical pixel column below the
origin pixel. -/
theorem bresPoints_down :
    bresPoints (pixelZ (1980, 1080)) (pixelZ (1980, 3060)) =
      (List.range 1980).map fun (k : ℕ) => ((1980 : ℤ), 1080 + (k : ℤ)) := by
  have hnew : bresNew (pixelZ (1980, 1080)) (pixelZ (1980, 3060)) =
      ⟨1080, 1980, 1980, 0, 3060, -1980, 1⟩ := by
    decide
  have hfuel : ((bresNew (pixelZ (1980, 1080)) (pixelZ (1980, 3060))).x1 -
      (bresNew (pixelZ (1980, 1080)) (pixelZ (1980, 3060))).x).toNat = 1980 := by
    rw [hnew]
    decide
  rw [bresPoints, hfuel, hnew]
  rw [bresRun_flat 1980 3060 1 1980 1080 1980 (-1980) (by norm_num) (by norm_num)]
  refine List.map_congr_left ?_
  intro k _
  rfl

/-- C2 counterexample.  For the angle `3π/2` (a valid unit direction,
`cos = 0`, `sin = -1`) the ray endpoint maps to pixel `(1980, 3060)`, and on
the all-white (fully-interior) raster the walk of `compute_radius` reads the
pixel `(1980, 2160)`, whose row is not below `IMG_HEIGHT = 2160`: the read
is out of range, contradicting the claim for this theta and raster. -/
theorem c2_counterexample :
    (0 : ℚ) ^ 2 + (-1 : ℚ) ^ 2 = 1 ∧
      endpointPixel 0 (-1) = (1980, 3060) ∧
      (1980, 2160) ∈ walkReads allWhiteRaster
        (bresPoints (pixelZ originPixel) (pixelZ (endpointPixel 0 (-1)))) ∧
      ¬ ((2160 : ℕ) < IMG_HEIGHT) := by
  refine ⟨by norm_num, endpointPixel_down, ?_, by norm_num [IMG_HEIGHT]⟩
  rw [endpointPixel_down, originPixel_eq, walkReads_allWhite, bresPoints_down, List.map_map]
  refine List.mem_map.mpr ⟨1080, List.mem_range.mpr (by norm_num), ?_⟩
  show pxOf (1980, 1080 + ((1080 : ℕ) : ℤ)) = (1980, 2160)
  norm_num [pxOf, isizeToU32]
  exact ⟨rfl, rfl⟩

/-- C2 amended.  The walk is not bounds-safe for every angle (see the
counterexample at `3π/2`, where the endpoint pixel's row `3060` exceeds the
raster); what holds is that every pixel read by the walk lies in the closed
box spanned by the origin pixel and the endpoint pixel, so whenever the
endpoint pixel lies inside `[0, W) × [0, H)` every read is in range. -/
theorem c2_amended_reads_in_bounds (img : Raster) (E p : ℕ × ℕ)
    (hEx : E.1 < IMG_WIDTH) (hEy : E.2 < IMG_HEIGHT)
    (hp : p ∈ walkReads img (bresPoints (pixelZ originPixel) (pixelZ E))) :
    p.1 < IMG_WIDTH ∧ p.2 < IMG_HEIGHT := by
  obtain ⟨z, hz, hpz⟩ := walkReads_subset img _ p hp
  have hbox := bresPoints_mem_box (pixelZ originPixel) (pixelZ E) z hz
  rw [originPixel_eq] at hbox
  simp only [pixelZ] at hbox
  obtain ⟨hb1, hb2, hb3, hb4⟩ := hbox
  have hEx' : E.1 < 3960 := hEx
  have hEy' : E.2 < 2160 := hEy
  have h01 : 0 ≤ z.1 := by omega
  have h02 : 0 ≤ z.2 := by omega
  have hu1 : z.1 < 4294967296 := by omega
  have hu2 : z.2 < 4294967296 := by omega
  have hc1 := isizeToU32_small z.1 h01 hu1
  have hc2 := isizeToU32_small z.2 h02 hu2
  rw [hpz]
  constructor
  · show isizeToU32 z.1 < 3960
    omega
  · show isizeToU32 z.2 < 2160
    omega

/-- C2 amended witness: toward the in-bounds endpoint pixel `(1981, 1080)`
the walk reads exactly the origin pixel, and that read is in bounds. -/
theorem c2_amended_reads_in_bounds_witness :
    ((1981 : ℕ) < IMG_WIDTH ∧ (1080 : ℕ) < IMG_HEIGHT ∧
      ((1980 : ℕ), (1080 : ℕ)) ∈ walkReads allWhiteRaster
        (bresPoints (pixelZ originPixel) (pixelZ (1981, 1080)))) ∧
      (1980 : ℕ) < IMG_WIDTH ∧ (1080 : ℕ) < IMG_HEIGHT := by
  have hmem : ((1980 : ℕ), (1080 : ℕ)) ∈ walkReads allWhiteRaster
      (bresPoints (pixelZ originPixel) (pixelZ (1981, 1080))) := by
    rw [originPixel_eq]
    decide
  exact ⟨⟨by norm_num [IMG_WIDTH], by norm_num [IMG_HEIGHT], hmem⟩,
    c2_amended_reads_in_bounds allWhiteRaster (1981, 1080) (1980, 1080)
      (by norm_num [IMG_WIDTH]) (by norm_num [IMG_HEIGHT]) hmem⟩

/-- The endpoint pixel for the angle `π/2` (direction `(0, 1)`): the ideal row
`1080 - 1980 = -900` saturates to `0` under the `as u32` cast, so the walked
ray is cut off at the top edge of the viewport. -/
theorem endpointPixel_up : endpointPixel 0 1 = (1980, 0) := by
  norm_num [endpointPixel, complex_to_coordinate, f32ToU32, IMG_WIDTH, IMG_HEIGHT]
  exact rfl

/-- The walk toward `(1980, 0)` is the vertical pixel column above the origin
pixel, stopping one short of row `0`. -/
theorem bresPoints_up :
    bresPoints (pixelZ (1980, 1080)) (pixelZ (1980, 0)) =
      (List.range 1080).map fun (k : ℕ) => ((1980 : ℤ), 1080 - (k : ℤ)) := by
  have hnew : bresNew (pixelZ (1980, 1080)) (pixelZ (1980, 0)) =
      ⟨-1080, -1980, 1080, 0, 0, -1080, 5⟩ := by
    decide
  have hfuel : ((bresNew (pixelZ (1980, 1080)) (pixelZ (1980, 0))).x1 -
      (bresNew (pixelZ (1980, 1080)) (pixelZ (1980, 0))).x).toNat = 1080 := by
    rw [hnew]
    decide
  rw [bresPoints, hfuel, hnew]
  rw [bresRun_flat 1080 0 5 1080 (-1080) (-1980) (-1080) (by norm_num) (by norm_num)]
  refine List.map_congr_left ?_
  intro k _
  show fromOctant0 5 (-1080 + (k : ℤ), -1980) = ((1980 : ℤ), 1080 - (k : ℤ))
  simp only [fromOctant0]
  rw [Prod.mk.injEq]
  constructor
  · norm_num
  · ring

/-- On the all-white raster the sampler's last member toward `(1980, 0)` is
the pixel `(1980, 1)`. -/
theorem radiusLast_up :
    radiusLastToward allWhiteRaster (1980, 0) = (1980, 1) := by
  obtain ⟨q, hq1, hq2⟩ := walkLast_all_white_ne_nil allWhiteRaster
    (bresPoints (pixelZ (1980, 1080)) (pixelZ (1980, 0))) originPixel
    (by rw [bresPoints_up]; simp)
    (fun p _ => rfl)
  have hlast : (bresPoints (pixelZ (1980, 1080)) (pixelZ (1980, 0))).getLast? =
      some ((1980 : ℤ), 1) := by
    rw [bresPoints_up, List.getLast?_eq_getElem?]
    simp [List.getElem?_range]
  rw [hq1] at hlast
  have hq : q = ((1980 : ℤ), 1) := Option.some_inj.mp hlast
  subst hq
  have hres : radiusLastToward allWhiteRaster (1980, 0) = pxOf (1980, 1) := by
    rw [radiusLastToward, radiusWalkToward, originPixel_eq]
    exact hq2
  rw [hres]
  decide

/-- C4 counterexample.  At the angle `π/2` (unit direction `(0, 1)`) on the
all-white raster every walked pixel is interior all the way to the endpoint,
yet the returned squared radius is `1164241 / 980100` (radius `1079 / 990`,
about `1.09`), far below the ray's full length `2.0`: the `as u32`
saturation clamps the endpoint's negative ideal row to `0`, so the walk only
covers the top half of the viewport, not the length-2 ray. -/
theorem c4_counterexample :
    (0 : ℚ) ^ 2 + (1 : ℚ) ^ 2 = 1 ∧
      (∀ p ∈ radiusWalkToward (endpointPixel 0 1),
        allWhiteRaster (pxOf p).1 (pxOf p).2 = whiteC) ∧
      compute_radius_sq allWhiteRaster 0 1 = 1164241 / 980100 ∧
      compute_radius_sq allWhiteRaster 0 1 < (659 / 330 : ℚ) ^ 2 := by
  have hval : compute_radius_sq allWhiteRaster 0 1 = 1164241 / 980100 := by
    rw [compute_radius_sq, radiusSqToward, endpointPixel_up, radiusLast_up, cNormSq_ctc]
    norm_num
  refine ⟨by norm_num, fun p _ => rfl, hval, ?_⟩
  rw [hval]
  norm_num

/-- C4 amended.  For a unit direction `(cos θ, sin θ) = (ct, st)` whose ray
endpoint does not leave the viewport vertically (`sin θ ≤ 6/11`, so the
`as u32` saturation never fires), if every pixel along the walked ray is
interior up to the endpoint then the returned radius is within `1/330` of
the ray's full length `2.0`: the squared radius lies between
`(2 - 1/330)^2` and `(2 + 1/330)^2`, the slack being exactly the mapping
truncation (at most one pixel of floor loss at the endpoint plus one pixel
of walk discretization, at `1/990` plane units per pixel). -/
theorem c4_amended_full_interior (img : Raster) (ct st : ℚ)
    (hunit : ct ^ 2 + st ^ 2 = 1) (hst : st ≤ 6 / 11)
    (hall : ∀ p ∈ radiusWalkToward (endpointPixel ct st),
      img (pxOf p).1 (pxOf p).2 = whiteC) :
    (659 / 330 : ℚ) ^ 2 ≤ compute_radius_sq img ct st ∧
      compute_radius_sq img ct st ≤ (661 / 330 : ℚ) ^ 2 := by
  have hct1 : -1 ≤ ct := by nlinarith [sq_nonneg st]
  have hct2 : ct ≤ 1 := by nlinarith [sq_nonneg st]
  have hst1 : -1 ≤ st := by nlinarith [sq_nonneg ct]
  rcases hEP : endpointPixel ct st with ⟨ex, ey⟩
  have hEPc : endpointPixel ct st =
      (f32ToU32 (990 * (2 * ct) + 1980), f32ToU32 (1080 - 990 * (2 * st))) :=
    complex_to_coordinate_closed ⟨2 * ct, 2 * st⟩
  rw [hEP, Prod.mk.injEq] at hEPc
  obtain ⟨hex, hey⟩ := hEPc
  have hA0 : (0 : ℚ) ≤ 990 * (2 * ct) + 1980 := by linarith
  have hA1 : (990 * (2 * ct) + 1980 : ℚ) ≤ 4294967295 := by linarith
  have hB0 : (0 : ℚ) ≤ 1080 - 990 * (2 * st) := by linarith
  have hB1 : (1080 - 990 * (2 * st) : ℚ) ≤ 4294967295 := by linarith
  have hxZ : ((ex : ℕ) : ℤ) = ⌊(990 * (2 * ct) + 1980 : ℚ)⌋ := by
    rw [hex]
    exact f32ToU32_eq_floor _ hA0 hA1
  have hyZ : ((ey : ℕ) : ℤ) = ⌊(1080 - 990 * (2 * st) : ℚ)⌋ := by
    rw [hey]
    exact f32ToU32_eq_floor _ hB0 hB1
  have hxQ : ((ex : ℕ) : ℚ) = ((⌊(990 * (2 * ct) + 1980 : ℚ)⌋ : ℤ) : ℚ) := by
    exact_mod_cast hxZ
  have hyQ : ((ey : ℕ) : ℚ) = ((⌊(1080 - 990 * (2 * st) : ℚ)⌋ : ℤ) : ℚ) := by
    exact_mod_cast hyZ
  have hxq1 : ((ex : ℕ) : ℚ) ≤ 990 * (2 * ct) + 1980 := by
    rw [hxQ]
    exact Int.floor_le _
  have hxq2 : (990 * (2 * ct) + 1980 : ℚ) < ((ex : ℕ) : ℚ) + 1 := by
    rw [hxQ]
    exact Int.lt_floor_add_one _
  have hyq1 : ((ey : ℕ) : ℚ) ≤ 1080 - 990 * (2 * st) := by
    rw [hyQ]
    exact Int.floor_le _
  have hyq2 : (1080 - 990 * (2 * st) : ℚ) < ((ey : ℕ) : ℚ) + 1 := by
    rw [hyQ]
    exact Int.lt_floor_add_one _
  have hexN : ex ≤ 3960 := by
    have h : ((ex : ℕ) : ℚ) ≤ 3960 := le_trans hxq1 (by linarith)
    exact_mod_cast h
  have heyN : ey ≤ 3060 := by
    have h : ((ey : ℕ) : ℚ) ≤ 3060 := le_trans hyq1 (by linarith)
    exact_mod_cast h
  have hSZ : pixelZ originPixel = ((1980 : ℤ), 1080) := by
    rw [originPixel_eq]
    rfl
  have hdxpos : 1 ≤ (toOctant0 (octantFromPoints ((1980 : ℤ), 1080) (pixelZ (ex, ey)))
        (pixelZ (ex, ey))).1 -
      (toOctant0 (octantFromPoints ((1980 : ℤ), 1080) (pixelZ (ex, ey)))
        ((1980 : ℤ), 1080)).1 := by
    by_contra hneg
    obtain ⟨hdy0, hdydx0⟩ := octant0_deltas ((1980 : ℤ), 1080) (pixelZ (ex, ey))
    have h1 : (toOctant0 (octantFromPoints ((1980 : ℤ), 1080) (pixelZ (ex, ey)))
        (pixelZ (ex, ey))).1 =
        (toOctant0 (octantFromPoints ((1980 : ℤ), 1080) (pixelZ (ex, ey)))
          ((1980 : ℤ), 1080)).1 := by
      omega
    have h2 : (toOctant0 (octantFromPoints ((1980 : ℤ), 1080) (pixelZ (ex, ey)))
        (pixelZ (ex, ey))).2 =
        (toOctant0 (octantFromPoints ((1980 : ℤ), 1080) (pixelZ (ex, ey)))
          ((1980 : ℤ), 1080)).2 := by
      omega
    have h3 : toOctant0 (octantFromPoints ((1980 : ℤ), 1080) (pixelZ (ex, ey)))
        (pixelZ (ex, ey)) =
        toOctant0 (octantFromPoints ((1980 : ℤ), 1080) (pixelZ (ex, ey)))
          ((1980 : ℤ), 1080) :=
      Prod.ext h1 h2
    have h4 := congrArg
      (fromOctant0 (octantFromPoints ((1980 : ℤ), 1080) (pixelZ (ex, ey)))) h3
    rw [fromOctant0_toOctant0, fromOctant0_toOctant0] at h4
    have hex1980 : ((ex : ℕ) : ℤ) = 1980 := by
      have h5 := congrArg Prod.fst h4
      simpa [pixelZ] using h5
    have hey1080 : ((ey : ℕ) : ℤ) = 1080 := by
      have h5 := congrArg Prod.snd h4
      simpa [pixelZ] using h5
    have hexQ : ((ex : ℕ) : ℚ) = 1980 := by exact_mod_cast hex1980
    have heyQ : ((ey : ℕ) : ℚ) = 1080 := by exact_mod_cast hey1080
    rw [hexQ] at hxq1 hxq2
    rw [heyQ] at hyq1 hyq2
    nlinarith [hxq1, hxq2, hyq1, hyq2, hunit]
  obtain ⟨q, hqlast, hq1, hq2, hq3, hq4, hqb1, hqb2, hqb3, hqb4⟩ :=
    bresPoints_last_near ((1980 : ℤ), 1080) (pixelZ (ex, ey)) hdxpos
  have hne : bresPoints ((1980 : ℤ), 1080) (pixelZ (ex, ey)) ≠ [] := by
    intro hnil
    rw [hnil] at hqlast
    simp at hqlast
  have hall2 : ∀ p ∈ bresPoints ((1980 : ℤ), 1080) (pixelZ (ex, ey)),
      img (pxOf p).1 (pxOf p).2 = whiteC := by
    intro p hp
    apply hall
    show p ∈ bresPoints (pixelZ originPixel) (pixelZ (endpointPixel ct st))
    rw [hSZ, hEP]
    exact hp
  obtain ⟨q', hq'last, hwalk⟩ :=
    walkLast_all_white_ne_nil img (bresPoints ((1980 : ℤ), 1080) (pixelZ (ex, ey)))
      originPixel hne hall2
  have hq'q : q' = q := by
    rw [hq'last] at hqlast
    exact Option.some_inj.mp hqlast
  rw [hq'q] at hwalk
  have hval : compute_radius_sq img ct st = cNormSq (coordinate_to_complex (pxOf q)) := by
    show cNormSq (coordinate_to_complex (walkLast img
      (bresPoints (pixelZ originPixel) (pixelZ (endpointPixel ct st))) originPixel)) = _
    rw [hSZ, hEP, hwalk]
  simp only [pixelZ] at hq1 hq2 hq3 hq4 hqb1 hqb2 hqb3 hqb4
  have hq1l : 0 ≤ q.1 := by omega
  have hq1u : q.1 ≤ 3960 := by omega
  have hq2l : 0 ≤ q.2 := by omega
  have hq2u : q.2 ≤ 3060 := by omega
  have hc1 := isizeToU32_small q.1 hq1l (by omega)
  have hc2 := isizeToU32_small q.2 hq2l (by omega)
  have hval2 : compute_radius_sq img ct st =
      (((isizeToU32 q.1 : ℕ) : ℚ) - 1980) ^ 2 / 990 ^ 2 +
        (((isizeToU32 q.2 : ℕ) : ℚ) - 1080) ^ 2 / 990 ^ 2 := by
    rw [hval]
    have h := cNormSq_ctc (isizeToU32 q.1) (isizeToU32 q.2)
    show cNormSq (coordinate_to_complex (isizeToU32 q.1, isizeToU32 q.2)) = _
    rw [h]
    ring
  have hQ1 : ((isizeToU32 q.1 : ℕ) : ℚ) = ((q.1 : ℤ) : ℚ) := by exact_mod_cast hc1
  have hQ2 : ((isizeToU32 q.2 : ℕ) : ℚ) = ((q.2 : ℤ) : ℚ) := by exact_mod_cast hc2
  have hq1Q1 : ((q.1 : ℤ) : ℚ) ≤ ((ex : ℕ) : ℚ) + 1 := by
    exact_mod_cast (by omega : q.1 ≤ ((ex : ℕ) : ℤ) + 1)
  have hq1Q2 : ((ex : ℕ) : ℚ) - 1 ≤ ((q.1 : ℤ) : ℚ) := by
    exact_mod_cast (by omega : ((ex : ℕ) : ℤ) - 1 ≤ q.1)
  have hq2Q1 : ((q.2 : ℤ) : ℚ) ≤ ((ey : ℕ) : ℚ) + 1 := by
    exact_mod_cast (by omega : q.2 ≤ ((ey : ℕ) : ℤ) + 1)
  have hq2Q2 : ((ey : ℕ) : ℚ) - 1 ≤ ((q.2 : ℤ) : ℚ) := by
    exact_mod_cast (by omega : ((ey : ℕ) : ℤ) - 1 ≤ q.2)
  have hu1 : 1980 * ct - 2 < ((isizeToU32 q.1 : ℕ) : ℚ) - 1980 := by
    rw [hQ1]
    linarith
  have hu2 : ((isizeToU32 q.1 : ℕ) : ℚ) - 1980 ≤ 1980 * ct + 1 := by
    rw [hQ1]
    linarith
  have hv1 : -(1980 * st) - 2 < ((isizeToU32 q.2 : ℕ) : ℚ) - 1080 := by
    rw [hQ2]
    linarith
  have hv2 : ((isizeToU32 q.2 : ℕ) : ℚ) - 1080 ≤ -(1980 * st) + 1 := by
    rw [hQ2]
    linarith
  obtain ⟨hlow, hhigh⟩ := radius_bound_arith ct st
    (((isizeToU32 q.1 : ℕ) : ℚ) - 1980) (((isizeToU32 q.2 : ℕ) : ℚ) - 1080)
    hunit hu1 hu2 hv1 hv2
  rw [hval2]
  constructor
  · have hconst : (659 / 330 : ℚ) ^ 2 = 3908529 / 990 ^ 2 := by norm_num
    rw [hconst, div_add_div_same, div_le_div_iff_of_pos_right (by norm_num : (0 : ℚ) < 990 ^ 2)]
    linarith [hlow]
  · have hconst : (661 / 330 : ℚ) ^ 2 = 3932289 / 990 ^ 2 := by norm_num
    rw [hconst, div_add_div_same, div_le_div_iff_of_pos_right (by norm_num : (0 : ℚ) < 990 ^ 2)]
    linarith [hhigh]

/-- C4 amended witness at the direction `(1, 0)` (angle `0`) on the all-white
raster. -/
theorem c4_amended_full_interior_witness :
    (659 / 330 : ℚ) ^ 2 ≤ compute_radius_sq allWhiteRaster 1 0 ∧
      compute_radius_sq allWhiteRaster 1 0 ≤ (661 / 330 : ℚ) ^ 2 :=
  c4_amended_full_interior allWhiteRaster 1 0 (by norm_num) (by norm_num) fun p _ => rfl

/-- C1 amended.  The renderer's colors are the reverse of the claim: a pixel
whose iteration count reaches the maximum (interior) is rendered white
`[255, 255, 255]`, and every other pixel (exterior) is rendered black
`[0, 0, 0]`; this holds for every entry of every rendered row. -/
theorem c1_amended_interior_white (x y : ℕ) :
    ((compute_row y)[x]? = some whiteC ↔
      x < IMG_WIDTH ∧ escapeCount (coordinate_to_complex (x, y)) = BAILOUT_ITERATIONS) ∧
      ((compute_row y)[x]? = some blackC ↔
        x < IMG_WIDTH ∧ escapeCount (coordinate_to_complex (x, y)) < BAILOUT_ITERATIONS) ∧
      (renderedRaster x y = whiteC ↔
        escapeCount (coordinate_to_complex (x, y)) = BAILOUT_ITERATIONS) := by
  have hle := escapeCount_le (coordinate_to_complex (x, y))
  have hrow : (compute_row y)[x]? =
      if x < IMG_WIDTH then
        some (if escapeCount (coordinate_to_complex (x, y)) < BAILOUT_ITERATIONS
          then blackC else whiteC)
      else none := by
    rw [compute_row, List.getElem?_map]
    by_cases hx : x < IMG_WIDTH
    · rw [List.getElem?_range hx, if_pos hx]
      rfl
    · rw [if_neg hx, List.getElem?_eq_none, Option.map_none']
      rw [List.length_range]
      omega
  have hwb : whiteC ≠ blackC := by decide
  by_cases hx : x < IMG_WIDTH
  · rw [hrow, if_pos hx]
    by_cases hesc : escapeCount (coordinate_to_complex (x, y)) < BAILOUT_ITERATIONS
    · rw [if_pos hesc]
      refine ⟨?_, ?_, ?_⟩
      · simp only [Option.some_inj]
        constructor
        · intro h; exact absurd h.symm hwb
        · intro h; omega
      · simp only [Option.some_inj]
        constructor
        · intro _; exact ⟨hx, hesc⟩
        · intro _; trivial
      · rw [renderedRaster, if_pos hesc]
        constructor
        · intro h; exact absurd h.symm hwb
        · intro h; omega
    · rw [if_neg hesc]
      refine ⟨?_, ?_, ?_⟩
      · simp only [Option.some_inj]
        constructor
        · intro _; exact ⟨hx, by omega⟩
        · intro _; trivial
      · simp only [Option.some_inj]
        constructor
        · intro h; exact absurd h hwb
        · intro h; omega
      · rw [renderedRaster, if_neg hesc]
        constructor
        · intro _; omega
        · intro _; rfl
  · rw [hrow, if_neg hx]
    refine ⟨?_, ?_, ?_⟩
    · constructor
      · intro h; exact absurd h (by simp)
      · intro h; exact absurd h.1 hx
    · constructor
      · intro h; exact absurd h (by simp)
      · intro h; exact absurd h.1 hx
    · rw [renderedRaster]
      by_cases hesc : escapeCount (coordinate_to_complex (x, y)) < BAILOUT_ITERATIONS
      · rw [if_pos hesc]
        constructor
        · intro h; exact absurd h.symm hwb
        · intro h; omega
      · rw [if_neg hesc]
        constructor
        · intro _; omega
        · intro _; rfl

/-- C1 amended witness at the center pixel. -/
theorem c1_amended_interior_white_witness :
    ((compute_row 1080)[1980]? = some whiteC ↔
      1980 < IMG_WIDTH ∧
        escapeCount (coordinate_to_complex (1980, 1080)) = BAILOUT_ITERATIONS) ∧
      ((compute_row 1080)[1980]? = some blackC ↔
        1980 < IMG_WIDTH ∧
          escapeCount (coordinate_to_complex (1980, 1080)) < BAILOUT_ITERATIONS) ∧
      (renderedRaster 1980 1080 = whiteC ↔
        escapeCount (coordinate_to_complex (1980, 1080)) = BAILOUT_ITERATIONS) :=
  c1_amended_interior_white 1980 1080
